/-
Verification of the AccessibilityEngine repository's heading-delimited text
chunking scripts.

The repository holds three single-run Python scripts:
  * `508Data/wcag22pdfscraper.py`  — PDF variant: splits extracted PDF text on
    success-criterion headings and emits chunks `{id, section, title, text, source}`.
  * `508Data/wcag_scraper.py`      — HTML variant: same split/pair shape plus a
    `(Level X)` metadata extraction, emitting `{id, section, title, level, text, source}`.
  * `508Data/import requests.py`   — flat variant: one chunk per non-empty
    structural element, `{id, source, text, type}`.

Strings are modelled as `List Char`.  The network fetch, HTML-to-text and
PDF-to-text steps are external collaborators; the pipelines below take the
already-extracted text (or element list) as input, exactly as the scripts'
chunking sections do.  The concrete regular expressions of the scripts are
translated as executable matchers with Python `re` semantics (leftmost match,
greedy quantifiers with backtracking where it can fire).
-/
import Mathlib

namespace AccessibilityEngine

set_option autoImplicit false

/-- Python `\s` on the ASCII range: the whitespace class used by
`re.sub(r"\s+", " ", ...)`, `str.strip()` and the `\s+` atoms of the
heading patterns.  All inputs manipulated by the scripts are ASCII. -/
def isWs (c : Char) : Bool :=
  c = ' ' || c = '\t' || c = '\n' || c = '\r' || c = '\x0b' || c = '\x0c'

/-- `re.sub(r"\s+", " ", s)`: every maximal whitespace run collapses to a
single space (the run's last character is kept as `' '`). -/
def collapseWs : List Char → List Char
  | [] => []
  | [c] => if isWs c then [' '] else [c]
  | a :: b :: r =>
    if isWs a && isWs b then collapseWs (b :: r)
    else (if isWs a then ' ' else a) :: collapseWs (b :: r)

/-- Python `str.strip()`: drop whitespace from both ends. -/
def pyStrip (s : List Char) : List Char :=
  ((s.dropWhile isWs).reverse.dropWhile isWs).reverse

/-- `clean` of `wcag22pdfscraper.py` (line 7) and, on present strings,
of `wcag_scraper.py` (line 8): `re.sub(r"\s+", " ", txt).strip()`. -/
def clean (s : List Char) : List Char :=
  pyStrip (collapseWs s)

/-- `clean` of `wcag_scraper.py` (line 8) including its `text or ""` guard:
a missing (`None`) argument is replaced by the empty string before the
substitution.  (`"" or ""` is also `""`, so on present strings this agrees
with `clean`.) -/
def cleanOpt (s : Option (List Char)) : List Char :=
  clean (s.getD [])

/-- The `\s+[^\n]+` tail shared by both heading patterns, matched greedily at
the head of `s`; returns the number of characters consumed.  Python first
takes the maximal whitespace run; if that reaches the end of the string it
backtracks, handing non-newline whitespace back to `[^\n]+`. -/
def matchWsBody (s : List Char) : Option Nat :=
  let w := (s.takeWhile isWs).length
  if w = 0 then none
  else if w < s.length then
    some (w + ((s.drop w).takeWhile (fun c => c != '\n')).length)
  else
    match (s.drop 1).reverse.findIdx? (fun c => c != '\n') with
    | some i => some (s.length - i)
    | none => none

/-- The heading pattern of `wcag22pdfscraper.py` (line 19),
`r"(\d\.\d\.\d+\s+[^\n]+)"`, matched at the head of `s`;
returns the length of the match. -/
def matchPdfHeading (s : List Char) : Option Nat :=
  match s with
  | d1 :: '.' :: d2 :: '.' :: rest =>
    if d1.isDigit && d2.isDigit then
      let ds := rest.takeWhile Char.isDigit
      if ds.length = 0 then none
      else
        match matchWsBody (rest.dropWhile Char.isDigit) with
        | some m => some (4 + ds.length + m)
        | none => none
    else none
  | _ => none

/-- The heading pattern of `wcag_scraper.py` (line 24),
`r"(Success Criterion\s+\d\.\d\.\d+\s+[^\n]+)"`, matched at the head of `s`. -/
def matchScHeading (s : List Char) : Option Nat :=
  match s with
  | 'S' :: 'u' :: 'c' :: 'c' :: 'e' :: 's' :: 's' :: ' ' ::
    'C' :: 'r' :: 'i' :: 't' :: 'e' :: 'r' :: 'i' :: 'o' :: 'n' :: rest =>
    let w := (rest.takeWhile isWs).length
    if w = 0 then none
    else
      match rest.dropWhile isWs with
      | d1 :: '.' :: d2 :: '.' :: rest2 =>
        if d1.isDigit && d2.isDigit then
          let ds := rest2.takeWhile Char.isDigit
          if ds.length = 0 then none
          else
            match matchWsBody (rest2.dropWhile Char.isDigit) with
            | some m => some (17 + w + 4 + ds.length + m)
            | none => none
        else none
      | _ => none
  | _ => none

/-- The heading decomposition of `wcag22pdfscraper.py` (line 30),
`re.match(r"(\d\.\d\.\d+)\s+(.*)", header_txt)`: returns
`(group 1, group 2)`.  `.*` is greedy and stops at a newline; since `\s+`
must consume at least one character and `.*` accepts the empty string, the
maximal whitespace run is consumed and `(.*)` is the following maximal
newline-free run. -/
def decomposePdf (h : List Char) : Option (List Char × List Char) :=
  match h with
  | d1 :: '.' :: d2 :: '.' :: rest =>
    if d1.isDigit && d2.isDigit then
      let ds := rest.takeWhile Char.isDigit
      if ds.length = 0 then none
      else
        let rest2 := rest.dropWhile Char.isDigit
        if (rest2.takeWhile isWs).length = 0 then none
        else
          some (d1 :: '.' :: d2 :: '.' :: ds,
                (rest2.dropWhile isWs).takeWhile (fun c => c != '\n'))
    else none
  | _ => none

/-- The heading decomposition of `wcag_scraper.py` (line 37),
`re.match(r"Success Criterion\s+(\d\.\d\.\d+)\s+(.*)", header)`: after the
literal prefix and one whitespace run, the remainder has exactly the shape
of the PDF decomposition. -/
def decomposeSc (h : List Char) : Option (List Char × List Char) :=
  match h with
  | 'S' :: 'u' :: 'c' :: 'c' :: 'e' :: 's' :: 's' :: ' ' ::
    'C' :: 'r' :: 'i' :: 't' :: 'e' :: 'r' :: 'i' :: 'o' :: 'n' :: rest =>
    if (rest.takeWhile isWs).length = 0 then none
    else decomposePdf (rest.dropWhile isWs)
  | _ => none

/-- The level pattern of `wcag_scraper.py` (lines 45 and 49),
`r"\(Level\s+([A]{1,3})\)"`, matched at the head of `s`; returns the match
length together with the captured run of `A`s.  `[A]{1,3}` is greedy: a run
of four or more `A`s fails, and the closing parenthesis must follow the run
directly. -/
def matchLevel (s : List Char) : Option (Nat × List Char) :=
  if s.take 6 = ['(', 'L', 'e', 'v', 'e', 'l'] then
    if ((s.drop 6).takeWhile isWs).length = 0 then none
    else if (((s.drop 6).dropWhile isWs).takeWhile (fun c => c == 'A')).length = 0 ∨
        3 < (((s.drop 6).dropWhile isWs).takeWhile (fun c => c == 'A')).length then none
    else
      match ((s.drop 6).dropWhile isWs).dropWhile (fun c => c == 'A') with
      | ')' :: _ =>
        some (6 + ((s.drop 6).takeWhile isWs).length +
          (((s.drop 6).dropWhile isWs).takeWhile (fun c => c == 'A')).length + 1,
          ((s.drop 6).dropWhile isWs).takeWhile (fun c => c == 'A'))
      | _ => none
  else none

/-- Scanner for `re.search(r"\(Level\s+([A]{1,3})\)", body)` (line 45 of
`wcag_scraper.py`): try the pattern at each position left to right and
return the first capture.  `fuel` bounds the recursion; it is instantiated
with the string length. -/
def scanSearch : Nat → List Char → Option (List Char)
  | 0, _ => none
  | _, [] => none
  | f + 1, c :: cs =>
    match matchLevel (c :: cs) with
    | some (_, a) => some a
    | none => scanSearch f cs

/-- `re.search(r"\(Level\s+([A]{1,3})\)", body)`, returning `group 1`. -/
def searchLevel (s : List Char) : Option (List Char) :=
  scanSearch s.length s

/-- Scanner for `re.sub(r"\(Level\s+[A]{1,3}\)", "", body)` (line 49 of
`wcag_scraper.py`): delete each non-overlapping match, scanning left to
right and resuming after a deleted match. -/
def scanSub : Nat → List Char → List Char
  | 0, s => s
  | _, [] => []
  | f + 1, c :: cs =>
    match matchLevel (c :: cs) with
    | some (n, _) => scanSub f ((c :: cs).drop n)
    | none => c :: scanSub f cs

/-- `re.sub(r"\(Level\s+[A]{1,3}\)", "", body)`. -/
def subLevel (s : List Char) : List Char :=
  scanSub s.length s

/-- Scanner for `re.split` with a single capturing group
(`wcag22pdfscraper.py` line 21, `wcag_scraper.py` line 25): scanning left to
right, the text splits into the segment before the first match and a list of
`(match, following segment)` pairs — Python's alternating
`[before, m1, t1, m2, t2, ...]` with `before` separated off, so the
trailing segment is always present (possibly empty) and the
`zip(it, it)` pairing in the scripts is total.  A zero-width match is
treated as no match (the scripts' patterns always consume at least one
character). -/
def scanSplit (matchAt : List Char → Option Nat) :
    Nat → List Char → List Char × List (List Char × List Char)
  | 0, s => (s, [])
  | _, [] => ([], [])
  | f + 1, c :: cs =>
    match matchAt (c :: cs) with
    | some n =>
      if n = 0 then
        let r := scanSplit matchAt f cs
        (c :: r.1, r.2)
      else
        let r := scanSplit matchAt f ((c :: cs).drop n)
        ([], ((c :: cs).take n, r.1) :: r.2)
    | none =>
      let r := scanSplit matchAt f cs
      (c :: r.1, r.2)

/-- `re.split(pattern, text)` with one capturing group, presented as
(prefix before first match, list of (heading match, following body)). -/
def splitCaps (matchAt : List Char → Option Nat) (s : List Char) :
    List Char × List (List Char × List Char) :=
  scanSplit matchAt s.length s

/-- Number of heading-pattern matches `re.split` found in the text. -/
def numMatches (matchAt : List Char → Option Nat) (s : List Char) : Nat :=
  (splitCaps matchAt s).2.length

/-- The chunk record built by the heading-variant scripts.  The PDF script's
dictionary has no `level` key; it is modelled by `level := none`. -/
structure Chunk where
  id : String
  «section» : String
  title : String
  level : Option String
  text : String
  source : String
deriving DecidableEq, Repr

/-- One iteration of the chunk-building loop (`wcag22pdfscraper.py`
lines 27–43, `wcag_scraper.py` lines 32–61): clean the heading, apply the
decomposition rule (`continue` on failure, yielding `none`), and build the
chunk.  With `extractLevel := true` the HTML variant's body handling runs:
`body.strip()`, then the level search and substitution, then `clean`.
With `extractLevel := false` the PDF variant's `text = clean(body)` runs. -/
def processPair (decompose : List Char → Option (List Char × List Char))
    (extractLevel : Bool) (src : String) (p : List Char × List Char) :
    Option Chunk :=
  match decompose (clean p.1) with
  | none => none
  | some (sec, title) =>
    let lvl : Option (List Char) :=
      if extractLevel then searchLevel (pyStrip p.2) else none
    let body : List Char :=
      if extractLevel then clean (subLevel (pyStrip p.2)) else clean p.2
    some { id := String.mk sec, «section» := String.mk sec,
           title := String.mk title, level := lvl.map String.mk,
           text := String.mk body, source := src }

/-- The `for header, body in zip(it, it): ... chunks.append(...)` loop over
the split's (heading, body) pairs. -/
def processPairs (decompose : List Char → Option (List Char × List Char))
    (extractLevel : Bool) (src : String)
    (ps : List (List Char × List Char)) : List Chunk :=
  ps.filterMap (processPair decompose extractLevel src)

/-- The heading-delimited chunker: split on the heading pattern, drop the
front matter before the first match, and run the pair loop. -/
def chunker (matchAt : List Char → Option Nat)
    (decompose : List Char → Option (List Char × List Char))
    (extractLevel : Bool) (src : String) (text : List Char) : List Chunk :=
  processPairs decompose extractLevel src (splitCaps matchAt text).2

/-- The chunking section of `wcag22pdfscraper.py` (lines 19–43), applied to
the extracted PDF text. -/
def pdfChunks (fullText : List Char) : List Chunk :=
  chunker matchPdfHeading decomposePdf false "WCAG 2.2 PDF" fullText

/-- `extract_success_criteria` of `wcag_scraper.py` (lines 24–63), applied
to the page text produced by the HTML collaborator. -/
def extract_success_criteria (fullText : List Char) : List Chunk :=
  chunker matchScHeading decomposeSc true "https://www.w3.org/TR/WCAG22/" fullText

/-- A structural element delivered by the HTML extraction collaborator of
`508Data/import requests.py`: its tag name (`el.name`) and its visible text
(`el.get_text(separator=" ", strip=True)`). -/
structure Element where
  name : String
  text : String
deriving DecidableEq, Repr

/-- The chunk record of `508Data/import requests.py`. -/
structure FlatChunk where
  id : String
  source : String
  text : String
  type : String
deriving DecidableEq, Repr

/-- The two loops of `508Data/import requests.py` (lines 18–34): collect the
non-empty element texts, then build one chunk per text with a running index.
The `type` field reads the extraction loop's variable `el` after that loop
has completed, so it is the tag name of the last element iterated (a found
tag is never `None`, so the `else "p"` fallback is unreachable); the chunk
loop's body only runs when some text is non-empty, hence only when the
element list is non-empty. -/
def flatChunks (url : String) (els : List Element) : List FlatChunk :=
  let paragraphs := els.filterMap (fun e => if e.text ≠ "" then some e.text else none)
  match els.getLast? with
  | none => []
  | some lastEl =>
    paragraphs.enum.map (fun p =>
      { id := "access-board-ict-" ++ toString p.1, source := url,
        text := p.2, type := lastEl.name })


/-! ### General helper lemmas -/

/-- Every character of `collapseWs s` is a space or a character of `s`. -/
theorem mem_collapseWs : ∀ (s : List Char) (c : Char), c ∈ collapseWs s → c = ' ' ∨ c ∈ s
  | [], c, h => by simp [collapseWs] at h
  | [a], c, h => by
    by_cases ha : isWs a
    · simp [collapseWs, ha] at h
      exact Or.inl h
    · simp [collapseWs, ha] at h
      exact Or.inr (by simp [h])
  | a :: b :: r, c, h => by
    by_cases hab : isWs a && isWs b
    · have h' : c ∈ collapseWs (b :: r) := by simpa [collapseWs, hab] using h
      rcases mem_collapseWs (b :: r) c h' with h'' | h''
      · exact Or.inl h''
      · exact Or.inr (List.mem_cons_of_mem _ h'')
    · simp only [collapseWs, hab, if_neg, Bool.false_eq_true, not_false_iff] at h
      rcases List.mem_cons.mp h with h' | h'
      · by_cases ha : isWs a
        · exact Or.inl (by simpa [ha] using h')
        · simp only [ha, if_neg, Bool.false_eq_true, not_false_iff] at h'
          exact Or.inr (by simp [h'])
      · rcases mem_collapseWs (b :: r) c h' with h'' | h''
        · exact Or.inl h''
        · exact Or.inr (List.mem_cons_of_mem _ h'')

theorem dropWhile_allWs (s : List Char) (h : ∀ c ∈ s, isWs c = true) :
    s.dropWhile isWs = [] := by
  induction s with
  | nil => rfl
  | cons a t ih =>
    rw [List.dropWhile_cons, if_pos (h a (List.mem_cons_self a t))]
    exact ih fun c hc => h c (List.mem_cons_of_mem _ hc)

theorem pyStrip_allWs (s : List Char) (h : ∀ c ∈ s, isWs c = true) :
    pyStrip s = [] := by
  unfold pyStrip
  rw [dropWhile_allWs s h]
  rfl

theorem clean_allWs (s : List Char) (h : ∀ c ∈ s, isWs c = true) :
    clean s = [] := by
  unfold clean
  refine pyStrip_allWs _ fun c hc => ?_
  rcases mem_collapseWs s c hc with rfl | hc'
  · rfl
  · exact h c hc'

theorem filterMap_filter_isSome {α β : Type} (f : α → Option β) (l : List α) :
    (l.filter (fun a => (f a).isSome)).filterMap f = l.filterMap f := by
  induction l with
  | nil => rfl
  | cons a l ih =>
    cases hfa : f a with
    | none => simp [List.filter_cons, List.filterMap_cons, hfa, ih]
    | some b => simp [List.filter_cons, List.filterMap_cons, hfa, ih]

theorem length_filterMap_of_isSome {α β : Type} (f : α → Option β) (l : List α)
    (h : ∀ a ∈ l, (f a).isSome = true) : (l.filterMap f).length = l.length := by
  induction l with
  | nil => rfl
  | cons a l ih =>
    obtain ⟨b, hb⟩ := Option.isSome_iff_exists.mp (h a (List.mem_cons_self a l))
    rw [List.filterMap_cons, hb]
    simp only [List.length_cons]
    rw [ih fun x hx => h x (List.mem_cons_of_mem _ hx)]

/-! ### Claim theorems -/

/-- Claim C1: the heading-variant chunker, run with the `\d\.\d\.\d+`-style
heading pattern and the level-extraction rule on the spec's example text,
yields exactly the two chunks `1.1.1 / Non-text Content / A / "All content
has alt text."` and `1.2.1 / Audio-only / AA / "Provide transcript."`,
whatever the configured source label is. -/
theorem spec_example_chunks (src : String) :
    chunker matchPdfHeading decomposePdf true src
        ("1.1.1 Non-text Content\nAll content has alt text. (Level A)\n1.2.1 Audio-only\nProvide transcript. (Level AA)\n").data =
      [Chunk.mk "1.1.1" "1.1.1" "Non-text Content" (some "A") "All content has alt text." src,
       Chunk.mk "1.2.1" "1.2.1" "Audio-only" (some "AA") "Provide transcript." src] := rfl

/-- Claim C2: in the flat-variant chunker, the `type` field of every emitted
chunk is the tag name of the last element iterated by the extraction loop
(the loop variable's value after that loop completes), independent of which
element each chunk's text came from. -/
theorem flat_type_is_last_element (url : String) (els : List Element) (lastEl : Element)
    (hne : ∃ e ∈ els, e.text ≠ "") (hlast : els.getLast? = some lastEl) :
    ∀ c ∈ flatChunks url els, c.type = lastEl.name := by
  intro c hc
  unfold flatChunks at hc
  rw [hlast] at hc
  simp only [List.mem_map] at hc
  obtain ⟨p, _, rfl⟩ := hc
  rfl

theorem flat_type_is_last_element_witness :
    (∃ e ∈ [Element.mk "h1" "Title", Element.mk "p" "Body"], e.text ≠ "") ∧
    ([Element.mk "h1" "Title", Element.mk "p" "Body"].getLast? = some (Element.mk "p" "Body")) ∧
    ∀ c ∈ flatChunks "https://www.access-board.gov/ict/"
        [Element.mk "h1" "Title", Element.mk "p" "Body"],
      c.type = (Element.mk "p" "Body").name :=
  ⟨by decide, by decide,
    flat_type_is_last_element "https://www.access-board.gov/ict/" _ _ (by decide) (by decide)⟩

/-- Claim C3: a (heading, body) pair whose cleaned heading fails the
decomposition rule produces no chunk and no error, and the chunks of all
other pairs are exactly what they would be without the malformed pair. -/
theorem malformed_pair_skipped (d : List Char → Option (List Char × List Char))
    (e : Bool) (src : String) (pre post : List (List Char × List Char))
    (bad : List Char × List Char) (hbad : d (clean bad.1) = none) :
    processPairs d e src (pre ++ bad :: post) =
      processPairs d e src pre ++ processPairs d e src post := by
  have hb : processPair d e src bad = none := by
    simp only [processPair, hbad]
  simp [processPairs, List.filterMap_append, List.filterMap_cons, hb]

theorem malformed_pair_skipped_witness :
    decomposePdf (clean ("garbage").data) = none ∧
    processPairs decomposePdf false "WCAG 2.2 PDF"
        ([(("1.1.1 A").data, ("b1").data)] ++
          ((("garbage").data, ("b2").data) :: [(("1.2.1 B").data, ("b3").data)])) =
      processPairs decomposePdf false "WCAG 2.2 PDF" [(("1.1.1 A").data, ("b1").data)] ++
        processPairs decomposePdf false "WCAG 2.2 PDF" [(("1.2.1 B").data, ("b3").data)] :=
  ⟨by decide, malformed_pair_skipped decomposePdf false "WCAG 2.2 PDF" _ _ _ (by decide)⟩

/-- Claim C5: the heading variants emit at most one chunk per heading-pattern
match found in the text, and the flat variant emits at most one chunk per
structural element scanned. -/
theorem chunk_count_le_matches :
    (∀ (m : List Char → Option Nat) (d : List Char → Option (List Char × List Char))
        (e : Bool) (src : String) (t : List Char),
      (chunker m d e src t).length ≤ numMatches m t) ∧
    (∀ (url : String) (els : List Element),
      (flatChunks url els).length ≤ els.length) := by
  constructor
  · intro m d e src t
    exact List.length_filterMap_le _ _
  · intro url els
    unfold flatChunks
    cases hlast : els.getLast? with
    | none => simp
    | some lastEl =>
      simp only [List.length_map, List.enum_length]
      exact List.length_filterMap_le _ _

/-- Claim C6: the heading-variant output is exactly the in-order mapping of
all the (heading, body) pairs that yield a chunk, taken as they occur in
the text: the subselection is pinned to the filter of the split's pair list
on chunk-producing pairs — an order-preserving sublist containing every
successful pair — and the output has one chunk per such pair (its length
equals the filter's), so there is no reordering, deduplication or
insertion. -/
theorem chunk_order_preserved :
    ∀ (m : List Char → Option Nat) (d : List Char → Option (List Char × List Char))
      (e : Bool) (src : String) (t : List Char),
    chunker m d e src t =
      ((splitCaps m t).2.filter
        (fun p => (processPair d e src p).isSome)).filterMap (processPair d e src) ∧
    List.Sublist ((splitCaps m t).2.filter
      (fun p => (processPair d e src p).isSome)) (splitCaps m t).2 ∧
    (∀ p ∈ (splitCaps m t).2, (processPair d e src p).isSome = true →
      p ∈ (splitCaps m t).2.filter (fun p => (processPair d e src p).isSome)) ∧
    (chunker m d e src t).length =
      ((splitCaps m t).2.filter (fun p => (processPair d e src p).isSome)).length := by
  intro m d e src t
  refine ⟨(filterMap_filter_isSome _ _).symm, List.filter_sublist _,
    fun p hp hs => List.mem_filter.mpr ⟨hp, hs⟩, ?_⟩
  rw [show chunker m d e src t =
    ((splitCaps m t).2.filter
      (fun p => (processPair d e src p).isSome)).filterMap (processPair d e src) from
    (filterMap_filter_isSome _ _).symm]
  exact length_filterMap_of_isSome _ _ fun p hp => (List.mem_filter.mp hp).2

/-- Claim C7: the flat variant on elements
`[("h1","Title"), ("p",""), ("p","Body text")]` yields exactly two chunks —
the empty element is dropped — with sequential ids `access-board-ict-0` and
`access-board-ict-1` over the emitted chunks, not gap-filled over element
positions. -/
theorem flat_example_chunks :
    flatChunks "https://www.access-board.gov/ict/"
        [Element.mk "h1" "Title", Element.mk "p" "", Element.mk "p" "Body text"] =
      [FlatChunk.mk "access-board-ict-0" "https://www.access-board.gov/ict/" "Title" "p",
       FlatChunk.mk "access-board-ict-1" "https://www.access-board.gov/ict/" "Body text" "p"] := by
  decide

/-- Claim C9: a pair whose body is empty or whitespace-only but whose heading
decomposes successfully still yields a chunk, with empty `text` (and no
level). -/
theorem empty_body_still_chunk (d : List Char → Option (List Char × List Char))
    (e : Bool) (src : String) (header body sec title : List Char)
    (hd : d (clean header) = some (sec, title))
    (hb : ∀ c ∈ body, isWs c = true) :
    processPair d e src (header, body) = some
      (Chunk.mk (String.mk sec) (String.mk sec) (String.mk title) none "" src) := by
  have hps : pyStrip body = [] := pyStrip_allWs body hb
  have hcl : clean body = [] := clean_allWs body hb
  simp only [processPair, hd, hps, hcl]
  cases e <;> simp [searchLevel, scanSearch, subLevel, scanSub, clean, collapseWs, pyStrip]

theorem empty_body_still_chunk_witness :
    decomposePdf (clean ("1.1.1 Title").data) = some (("1.1.1").data, ("Title").data) ∧
    (∀ c ∈ (" \n\t ").data, isWs c = true) ∧
    processPair decomposePdf true "WCAG 2.2 PDF" ((("1.1.1 Title").data, (" \n\t ").data)) =
      some (Chunk.mk (String.mk ("1.1.1").data) (String.mk ("1.1.1").data)
        (String.mk ("Title").data) none "" "WCAG 2.2 PDF") :=
  ⟨by decide, by decide,
    empty_body_still_chunk decomposePdf true "WCAG 2.2 PDF" _ _ _ _ (by decide) (by decide)⟩

/-- Claim C10: the HTML-scraper variant's `clean` is total on a missing
input: the `text or ""` guard makes `clean(None)` return the empty string,
and on present strings the guard changes nothing. -/
theorem cleanOpt_total_on_none :
    cleanOpt none = [] ∧ ∀ s, cleanOpt (some s) = clean s :=
  ⟨rfl, fun s => rfl⟩


/-! ### Idempotence of `clean` (claim C8) -/

/-- The no-adjacent-whitespace relation on the characters of a cleaned
string. -/
def noWsPair (a b : Char) : Prop := (isWs a && isWs b) = false

theorem dropWhile_head_not (p : Char → Bool) (l : List Char) (c : Char)
    (h : (l.dropWhile p).head? = some c) : p c = false := by
  have hmatch := List.head?_dropWhile_not p l
  rw [h] at hmatch
  exact hmatch

theorem dropWhile_eq_self (p : Char → Bool) (l : List Char)
    (h : ∀ c, l.head? = some c → p c = false) : l.dropWhile p = l := by
  cases l with
  | nil => rfl
  | cons a t =>
    rw [List.dropWhile_cons, if_neg]
    simp [h a rfl]

/-- Whitespace characters surviving `collapseWs` are plain spaces. -/
theorem collapseWs_ws_is_space : ∀ (s : List Char) (c : Char),
    c ∈ collapseWs s → isWs c = true → c = ' '
  | [], c, hc, _ => by simp [collapseWs] at hc
  | [a], c, hc, hw => by
    by_cases ha : isWs a
    · simpa [collapseWs, ha] using hc
    · simp [collapseWs, ha] at hc
      rw [hc] at hw
      exact absurd hw (by simp [ha])
  | a :: b :: r, c, hc, hw => by
    by_cases hab : isWs a && isWs b
    · exact collapseWs_ws_is_space (b :: r) c (by simpa [collapseWs, hab] using hc) hw
    · simp only [collapseWs, hab, Bool.false_eq_true, if_neg, not_false_iff] at hc
      rcases List.mem_cons.mp hc with h' | h'
      · by_cases ha : isWs a
        · simpa [ha] using h'
        · rw [if_neg (by simp [ha])] at h'
          rw [h'] at hw
          exact absurd hw (by simp [ha])
      · exact collapseWs_ws_is_space (b :: r) c h' hw

/-- The head of `collapseWs (b :: r)` is `b` itself when `b` is not
whitespace. -/
theorem collapseWs_head (b : Char) (r : List Char) (hb : isWs b = false) :
    (collapseWs (b :: r)).head? = some b := by
  cases r with
  | nil => simp [collapseWs, hb]
  | cons c r' => simp [collapseWs, hb]

/-- `collapseWs` output never has two adjacent whitespace characters. -/
theorem collapseWs_chain : ∀ (s : List Char), List.Chain' noWsPair (collapseWs s)
  | [] => by simp [collapseWs, List.chain'_nil]
  | [c] => by
    by_cases h : isWs c <;> simp [collapseWs, h, List.chain'_singleton]
  | a :: b :: r => by
    by_cases hab : isWs a && isWs b
    · simpa [collapseWs, hab] using collapseWs_chain (b :: r)
    · have hrec := collapseWs_chain (b :: r)
      simp only [collapseWs, hab, Bool.false_eq_true, if_neg, not_false_iff]
      refine List.chain'_cons'.mpr ⟨?_, hrec⟩
      intro y hy
      by_cases ha : isWs a
      · have hb : isWs b = false := by
          rcases Bool.and_eq_false_iff.mp (Bool.eq_false_iff.mpr hab) with h' | h'
          · exact absurd ha (by simp [h'])
          · exact h'
        rw [collapseWs_head b r hb] at hy
        cases hy
        simp [noWsPair, hb]
      · simp [noWsPair, ha]

/-- Splitting a list at its whitespace tail: the reversed drop/take of the
reverse. -/
theorem rstrip_decomp (u : List Char) :
    u = (u.reverse.dropWhile isWs).reverse ++ (u.reverse.takeWhile isWs).reverse := by
  calc u = u.reverse.reverse := (List.reverse_reverse u).symm
    _ = (u.reverse.takeWhile isWs ++ u.reverse.dropWhile isWs).reverse := by
        rw [List.takeWhile_append_dropWhile]
    _ = (u.reverse.dropWhile isWs).reverse ++ (u.reverse.takeWhile isWs).reverse := by
        rw [List.reverse_append]

theorem pyStrip_head_not_ws (s : List Char) (c : Char)
    (h : (pyStrip s).head? = some c) : isWs c = false := by
  have hdec := rstrip_decomp (s.dropWhile isWs)
  have hps : pyStrip s = ((s.dropWhile isWs).reverse.dropWhile isWs).reverse := rfl
  rw [← hps] at hdec
  cases hpsl : pyStrip s with
  | nil => rw [hpsl] at h; cases h
  | cons a t =>
    rw [hpsl] at h hdec
    cases h
    refine dropWhile_head_not isWs s c ?_
    rw [hdec]
    rfl

theorem pyStrip_last_not_ws (s : List Char) (c : Char)
    (h : (pyStrip s).reverse.head? = some c) : isWs c = false := by
  have hrev : (pyStrip s).reverse = (s.dropWhile isWs).reverse.dropWhile isWs := by
    unfold pyStrip
    rw [List.reverse_reverse]
  rw [hrev] at h
  exact dropWhile_head_not isWs _ c h

theorem pyStrip_subset (s : List Char) (c : Char) (hc : c ∈ pyStrip s) : c ∈ s := by
  unfold pyStrip at hc
  rw [List.mem_reverse] at hc
  have hc2 := (List.dropWhile_sublist (l := (s.dropWhile isWs).reverse) isWs).subset hc
  rw [List.mem_reverse] at hc2
  exact (List.dropWhile_sublist (l := s) isWs).subset hc2

theorem pyStrip_chain (s : List Char) (h : List.Chain' noWsPair s) :
    List.Chain' noWsPair (pyStrip s) := by
  have h1 : List.Chain' noWsPair (s.dropWhile isWs) :=
    h.suffix (List.dropWhile_suffix isWs)
  have h2 : List.Chain' (flip noWsPair) (s.dropWhile isWs).reverse :=
    (List.chain'_reverse (R := flip noWsPair)).mpr h1
  have h3 : List.Chain' (flip noWsPair) ((s.dropWhile isWs).reverse.dropWhile isWs) :=
    h2.suffix (List.dropWhile_suffix isWs)
  exact (List.chain'_reverse (R := noWsPair)).mpr h3

/-- A string with all-space whitespace and no adjacent whitespace is a
`collapseWs` fixpoint. -/
theorem collapseWs_fix : ∀ (y : List Char),
    (∀ c ∈ y, isWs c = true → c = ' ') → List.Chain' noWsPair y → collapseWs y = y
  | [], _, _ => rfl
  | [c], hs, _ => by
    by_cases h : isWs c
    · have hc : c = ' ' := hs c (by simp) h
      subst hc
      decide
    · simp [collapseWs, h]
  | a :: b :: r, hs, hch => by
    have hab : noWsPair a b := (List.chain'_cons.mp hch).1
    have htail : collapseWs (b :: r) = b :: r :=
      collapseWs_fix (b :: r) (fun c hc hw => hs c (List.mem_cons_of_mem _ hc) hw)
        (List.chain'_cons.mp hch).2
    simp only [collapseWs, noWsPair.eq_1] at hab ⊢
    rw [if_neg (by simp [hab]), htail]
    by_cases ha : isWs a
    · rw [if_pos ha, (hs a (by simp) ha).symm]
    · rw [if_neg ha]

/-- A string with no whitespace at either end is a `pyStrip` fixpoint. -/
theorem pyStrip_fix (y : List Char)
    (h1 : ∀ c, y.head? = some c → isWs c = false)
    (h2 : ∀ c, y.reverse.head? = some c → isWs c = false) : pyStrip y = y := by
  unfold pyStrip
  rw [dropWhile_eq_self isWs y h1, dropWhile_eq_self isWs y.reverse h2,
    List.reverse_reverse]

/-- Claim C8: `clean` is idempotent — `clean (clean x) = clean x` for every
string, for the PDF scraper's `clean` and for the HTML scraper's guarded
`clean` alike. -/
theorem clean_idempotent :
    (∀ x : List Char, clean (clean x) = clean x) ∧
    (∀ t : Option (List Char), cleanOpt (some (cleanOpt t)) = cleanOpt t) := by
  have main : ∀ x : List Char, clean (clean x) = clean x := by
    intro x
    have hspace : ∀ c ∈ clean x, isWs c = true → c = ' ' := fun c hc hw =>
      collapseWs_ws_is_space x c (pyStrip_subset (collapseWs x) c hc) hw
    have hchain : List.Chain' noWsPair (clean x) :=
      pyStrip_chain (collapseWs x) (collapseWs_chain x)
    show pyStrip (collapseWs (clean x)) = clean x
    rw [collapseWs_fix (clean x) hspace hchain]
    exact pyStrip_fix (clean x) (pyStrip_head_not_ws (collapseWs x))
      (pyStrip_last_not_ws (collapseWs x))
  exact ⟨main, fun t => main (t.getD [])⟩


/-! ### The `(Level X)` marker and its extraction (claim C4) -/

/-- A well-formed whitespace run for the `\s+` of the level pattern. -/
def wsOK (w : List Char) : Prop := w ≠ [] ∧ ∀ c ∈ w, isWs c = true

/-- A well-formed capture for `[A]{1,3}`. -/
def aOK (a : List Char) : Prop := a ≠ [] ∧ a.length ≤ 3 ∧ ∀ c ∈ a, c = 'A'

/-- The text of a `(Level X)` metadata marker with whitespace `w` and
capture `a`. -/
def mark (w a : List Char) : List Char :=
  '(' :: 'L' :: 'e' :: 'v' :: 'e' :: 'l' :: (w ++ a ++ [')'])

/-- `s` contains a marker occurrence whose captured value is `a`. -/
def MarkerValP (s a : List Char) : Prop :=
  ∃ u w v, wsOK w ∧ aOK a ∧ s = u ++ mark w a ++ v

/-- `s` contains a `(Level X)` marker occurrence. -/
def HasMarkerP (s : List Char) : Prop := ∃ a, MarkerValP s a

/-- Every `'('` in `s` begins a marker occurrence. -/
def ParenOk (s : List Char) : Prop :=
  ∀ u v, s = u ++ '(' :: v → ∃ w a t, wsOK w ∧ aOK a ∧ '(' :: v = mark w a ++ t

theorem mark_length (w a : List Char) :
    (mark w a).length = 6 + w.length + a.length + 1 := by
  simp [mark]
  omega

theorem mark_ne_nil (w a : List Char) : mark w a ≠ [] := by
  simp [mark]

theorem takeWhile_append_of_all (p : Char → Bool) (w : List Char) (c : Char)
    (r : List Char) (hw : ∀ x ∈ w, p x = true) (hc : p c = false) :
    (w ++ c :: r).takeWhile p = w := by
  induction w with
  | nil => simp [List.takeWhile_cons, hc]
  | cons a t ih =>
    rw [List.cons_append, List.takeWhile_cons, if_pos (hw a (by simp))]
    rw [ih fun x hx => hw x (List.mem_cons_of_mem _ hx)]

theorem dropWhile_append_of_all (p : Char → Bool) (w : List Char) (c : Char)
    (r : List Char) (hw : ∀ x ∈ w, p x = true) (hc : p c = false) :
    (w ++ c :: r).dropWhile p = c :: r := by
  induction w with
  | nil => simp [List.dropWhile_cons, hc]
  | cons a t ih =>
    rw [List.cons_append, List.dropWhile_cons, if_pos (hw a (by simp))]
    exact ih fun x hx => hw x (List.mem_cons_of_mem _ hx)

/-- The level pattern matches at the head of any text starting with a
well-formed marker, capturing exactly its `A` run. -/
theorem matchLevel_mark (w a : List Char) (hw : wsOK w) (ha : aOK a)
    (t : List Char) :
    matchLevel (mark w a ++ t) = some (6 + w.length + a.length + 1, a) := by
  obtain ⟨hwne, hwall⟩ := hw
  obtain ⟨hane, halen, haall⟩ := ha
  obtain ⟨a0, a', rfl⟩ := List.exists_cons_of_ne_nil hane
  have ha0 : a0 = 'A' := haall a0 (by simp)
  subst ha0
  have hform : mark w ('A' :: a') ++ t =
      '(' :: 'L' :: 'e' :: 'v' :: 'e' :: 'l' :: (w ++ 'A' :: (a' ++ ')' :: t)) := by
    simp [mark]
  have htw : (w ++ 'A' :: (a' ++ ')' :: t)).takeWhile isWs = w :=
    takeWhile_append_of_all isWs w 'A' _ hwall (by decide)
  have hdw : (w ++ 'A' :: (a' ++ ')' :: t)).dropWhile isWs = ('A' :: a') ++ ')' :: t := by
    rw [dropWhile_append_of_all isWs w 'A' _ hwall (by decide)]
    simp
  have haall' : ∀ x ∈ 'A' :: a', (x == 'A') = true := by
    intro x hx
    have := haall x hx
    simp [this]
  have htA : (('A' :: a') ++ ')' :: t).takeWhile (fun c => c == 'A') = 'A' :: a' :=
    takeWhile_append_of_all _ _ ')' _ haall' (by decide)
  have hdA : (('A' :: a') ++ ')' :: t).dropWhile (fun c => c == 'A') = ')' :: t :=
    dropWhile_append_of_all _ _ ')' _ haall' (by decide)
  rw [hform]
  simp only [matchLevel]
  rw [show List.take 6 ('(' :: 'L' :: 'e' :: 'v' :: 'e' :: 'l' ::
      (w ++ 'A' :: (a' ++ ')' :: t))) = ['(', 'L', 'e', 'v', 'e', 'l'] from rfl,
    show List.drop 6 ('(' :: 'L' :: 'e' :: 'v' :: 'e' :: 'l' ::
      (w ++ 'A' :: (a' ++ ')' :: t))) = w ++ 'A' :: (a' ++ ')' :: t) from rfl]
  rw [if_pos rfl]
  simp only [htw, hdw, htA, hdA]
  rw [if_neg (by simp [hwne]), if_neg ?_]
  intro hbad
  rcases hbad with hbad | hbad
  · simp at hbad
  · exact Nat.not_lt.mpr halen hbad

/-- Conversely, a successful `matchLevel` exhibits a marker at the head of
the text. -/
theorem matchLevel_decomp (s : List Char) (n : Nat) (a : List Char)
    (h : matchLevel s = some (n, a)) :
    ∃ w t, wsOK w ∧ aOK a ∧ s = mark w a ++ t ∧ n = 6 + w.length + a.length + 1 := by
  simp only [matchLevel] at h
  split at h
  case isFalse => cases h
  case isTrue h6 =>
  split at h
  case isTrue => cases h
  case isFalse hw0 =>
  split at h
  case isTrue => cases h
  case isFalse hag =>
  split at h
  case h_2 => cases h
  case h_1 c8 tail heq =>
  have hp := Option.some.inj h
  have hn : n = 6 + ((s.drop 6).takeWhile isWs).length +
      (((s.drop 6).dropWhile isWs).takeWhile (fun c => c == 'A')).length + 1 :=
    (congrArg Prod.fst hp).symm
  have hA : a = ((s.drop 6).dropWhile isWs).takeWhile (fun c => c == 'A') :=
    (congrArg Prod.snd hp).symm
  rw [not_or] at hag
  refine ⟨(s.drop 6).takeWhile isWs, tail, ⟨?_, ?_⟩, ⟨?_, ?_, ?_⟩, ?_, ?_⟩
  · intro hnil
    exact hw0 (by rw [hnil]; rfl)
  · intro c hc
    exact List.mem_takeWhile_imp hc
  · intro hnil
    exact hag.1 (by rw [← hA, hnil]; rfl)
  · rw [hA]
    exact Nat.le_of_not_lt hag.2
  · intro c hc
    rw [hA] at hc
    have := List.mem_takeWhile_imp hc
    simpa using this
  · have e1 : s.drop 6 =
        ((s.drop 6).takeWhile isWs) ++ ((s.drop 6).dropWhile isWs) :=
      (List.takeWhile_append_dropWhile isWs (s.drop 6)).symm
    have e2 : (s.drop 6).dropWhile isWs =
        (((s.drop 6).dropWhile isWs).takeWhile (fun c => c == 'A')) ++ ')' :: tail := by
      conv_lhs => rw [← List.takeWhile_append_dropWhile (fun c => c == 'A')
        ((s.drop 6).dropWhile isWs)]
      rw [heq]
    rw [hA]
    calc s = s.take 6 ++ s.drop 6 := (List.take_append_drop 6 s).symm
      _ = ['(', 'L', 'e', 'v', 'e', 'l'] ++
          (((s.drop 6).takeWhile isWs) ++
            ((((s.drop 6).dropWhile isWs).takeWhile (fun c => c == 'A')) ++ ')' :: tail)) := by
        rw [h6]
        conv_lhs => rw [e1, e2]
      _ = mark ((s.drop 6).takeWhile isWs)
            (((s.drop 6).dropWhile isWs).takeWhile (fun c => c == 'A')) ++ tail := by
        simp [mark]
  · rw [hA]
    exact hn


theorem ParenOk_append_right (x y : List Char) (h : ParenOk (x ++ y)) : ParenOk y := by
  intro u v huv
  exact h (x ++ u) v (by rw [huv, List.append_assoc])

/-- If the scan finds nothing, the text contains no marker occurrence. -/
theorem scanSearch_none : ∀ (f : Nat) (s : List Char), s.length ≤ f →
    scanSearch f s = none → ∀ u w a v, wsOK w → aOK a → s ≠ u ++ mark w a ++ v
  | 0, s, hle, _, u, w, a, v, _, _ => by
    have hs : s = [] := List.length_eq_zero.mp (Nat.le_zero.mp hle)
    subst hs
    intro heq
    have hlen := congrArg List.length heq
    simp [List.length_append, mark_length] at hlen
    omega
  | _ + 1, [], _, _, u, w, a, v, _, _ => by
    intro heq
    have hlen := congrArg List.length heq
    simp [List.length_append, mark_length] at hlen
    omega
  | f + 1, c :: cs, hle, hnone, u, w, a, v, hw, ha => by
    intro heq
    simp only [scanSearch] at hnone
    cases hm : matchLevel (c :: cs) with
    | some p =>
      rw [hm] at hnone
      simp at hnone
    | none =>
      rw [hm] at hnone
      cases u with
      | nil =>
        simp only [List.nil_append] at heq
        rw [heq, matchLevel_mark w a hw ha v] at hm
        cases hm
      | cons u0 u' =>
        have hcs : cs = u' ++ mark w a ++ v := by
          have h2 : c :: cs = u0 :: (u' ++ mark w a ++ v) := by
            simpa [List.cons_append] using heq
          exact (List.cons.injEq _ _ _ _).mp h2 |>.2
        have hlef : cs.length ≤ f := by
          simp only [List.length_cons] at hle
          omega
        exact scanSearch_none f cs hlef hnone u' w a v hw ha hcs

/-- A successful scan exhibits a marker with the returned capture. -/
theorem scanSearch_some : ∀ (f : Nat) (s a : List Char),
    scanSearch f s = some a → MarkerValP s a
  | 0, s, a, h => by simp [scanSearch] at h
  | _ + 1, [], a, h => by simp [scanSearch] at h
  | f + 1, c :: cs, a, h => by
    simp only [scanSearch] at h
    cases hm : matchLevel (c :: cs) with
    | some p =>
      obtain ⟨n0, a0⟩ := p
      rw [hm] at h
      simp at h
      obtain ⟨w, t, hw, ha, heq, _⟩ := matchLevel_decomp (c :: cs) n0 a0 hm
      subst h
      exact ⟨[], w, t, hw, ha, by simpa using heq⟩
    | none =>
      rw [hm] at h
      obtain ⟨u, w, v, hw, ha, heq⟩ := scanSearch_some f cs a h
      exact ⟨c :: u, w, v, hw, ha, by simp [heq]⟩

/-- When every `'('` begins a marker, the substitution removes every `'('`. -/
theorem scanSub_no_paren : ∀ (f : Nat) (s : List Char), s.length ≤ f → ParenOk s →
    '(' ∉ scanSub f s
  | 0, s, hle, _ => by
    have hs : s = [] := List.length_eq_zero.mp (Nat.le_zero.mp hle)
    subst hs
    simp [scanSub]
  | _ + 1, [], _, _ => by simp [scanSub]
  | f + 1, c :: cs, hle, hpo => by
    simp only [scanSub]
    cases hm : matchLevel (c :: cs) with
    | some p =>
      obtain ⟨n0, a0⟩ := p
      obtain ⟨w, t, hw, ha, heq, hn⟩ := matchLevel_decomp (c :: cs) n0 a0 hm
      have hdrop : (c :: cs).drop n0 = t := by
        rw [heq, hn, ← mark_length w a0]
        exact List.drop_left _ _
      show '(' ∉ scanSub f ((c :: cs).drop n0)
      rw [hdrop]
      have hlt : t.length ≤ f := by
        have hl := congrArg List.length heq
        simp only [List.length_cons, List.length_append, mark_length] at hl
        simp only [List.length_cons] at hle
        omega
      have hpt : ParenOk t := by
        rw [heq] at hpo
        exact ParenOk_append_right (mark w a0) t hpo
      exact scanSub_no_paren f t hlt hpt
    | none =>
      have hc : c ≠ '(' := by
        intro hc
        subst hc
        obtain ⟨w, a, t, hw, ha, hmk⟩ := hpo [] cs rfl
        rw [hmk, matchLevel_mark w a hw ha t] at hm
        cases hm
      have hcs : ParenOk cs := ParenOk_append_right [c] cs hpo
      have hlef : cs.length ≤ f := by
        simp only [List.length_cons] at hle
        omega
      intro hmem
      rcases List.mem_cons.mp hmem with h1 | h1
      · exact hc h1.symm
      · exact scanSub_no_paren f cs hlef hcs h1

theorem no_paren_clean (s : List Char) (h : '(' ∉ s) : '(' ∉ clean s := by
  intro hc
  have h1 : '(' ∈ collapseWs s := pyStrip_subset (collapseWs s) '(' hc
  rcases mem_collapseWs s '(' h1 with h2 | h2
  · exact absurd h2 (by decide)
  · exact h h2

theorem hasMarker_paren (t : List Char) (h : HasMarkerP t) : '(' ∈ t := by
  obtain ⟨a, u, w, v, _, _, heq⟩ := h
  rw [heq]
  simp [mark]

theorem dropWhile_append_anchor (p : Char → Bool) (u z : List Char) (c : Char)
    (hc : p c = false) :
    (u ++ c :: z).dropWhile p = u.dropWhile p ++ c :: z := by
  induction u with
  | nil => simp [List.dropWhile_cons, hc]
  | cons x t ih =>
    rw [List.cons_append, List.dropWhile_cons, List.dropWhile_cons]
    cases hpx : p x with
    | true => simpa [hpx] using ih
    | false => simp [hpx, List.cons_append]

/-- Splitting a string around its stripped core: both removed parts are pure
whitespace. -/
theorem pyStrip_decomp (s : List Char) :
    ∃ pfx sfx, s = pfx ++ pyStrip s ++ sfx ∧
      (∀ c ∈ pfx, isWs c = true) ∧ (∀ c ∈ sfx, isWs c = true) := by
  refine ⟨s.takeWhile isWs, ((s.dropWhile isWs).reverse.takeWhile isWs).reverse, ?_, ?_, ?_⟩
  · calc s = s.takeWhile isWs ++ s.dropWhile isWs :=
        (List.takeWhile_append_dropWhile _ _).symm
      _ = s.takeWhile isWs ++
          (pyStrip s ++ ((s.dropWhile isWs).reverse.takeWhile isWs).reverse) := by
        congr 1
        exact rstrip_decomp (s.dropWhile isWs)
      _ = s.takeWhile isWs ++ pyStrip s ++
          ((s.dropWhile isWs).reverse.takeWhile isWs).reverse := by
        rw [List.append_assoc]
  · intro c hc
    exact List.mem_takeWhile_imp hc
  · intro c hc
    rw [List.mem_reverse] at hc
    exact List.mem_takeWhile_imp hc

/-- A marker occurrence survives `str.strip()`: nothing of it is whitespace
at either end. -/
theorem pyStrip_marker (s u w a v : List Char) (heq : s = u ++ mark w a ++ v) :
    ∃ u2 v2, pyStrip s = u2 ++ mark w a ++ v2 := by
  have h1 : s.dropWhile isWs = u.dropWhile isWs ++ mark w a ++ v := by
    rw [heq]
    rw [show u ++ mark w a ++ v =
      u ++ '(' :: (('L' :: 'e' :: 'v' :: 'e' :: 'l' :: (w ++ a ++ [')'])) ++ v) from by
        simp [mark]]
    rw [dropWhile_append_anchor isWs u _ '(' (by decide)]
    simp [mark]
  have hmark2 : mark w a = ('(' :: 'L' :: 'e' :: 'v' :: 'e' :: 'l' :: (w ++ a)) ++ [')'] := by
    simp [mark]
  have h2 : (s.dropWhile isWs).reverse =
      v.reverse ++ ')' :: (('(' :: 'L' :: 'e' :: 'v' :: 'e' :: 'l' :: (w ++ a)).reverse ++
        (u.dropWhile isWs).reverse) := by
    rw [h1, hmark2]
    simp [List.reverse_append]
  have h3 : (s.dropWhile isWs).reverse.dropWhile isWs =
      v.reverse.dropWhile isWs ++ ')' ::
        (('(' :: 'L' :: 'e' :: 'v' :: 'e' :: 'l' :: (w ++ a)).reverse ++
          (u.dropWhile isWs).reverse) := by
    rw [h2]
    exact dropWhile_append_anchor isWs v.reverse _ ')' (by decide)
  refine ⟨u.dropWhile isWs, (v.reverse.dropWhile isWs).reverse, ?_⟩
  show ((s.dropWhile isWs).reverse.dropWhile isWs).reverse = _
  rw [h3, hmark2]
  simp [List.reverse_append, List.append_assoc]

/-- A marker in the stripped body is a marker in the body. -/
theorem markerVal_back (s a : List Char) (h : MarkerValP (pyStrip s) a) :
    MarkerValP s a := by
  obtain ⟨u, w, v, hw, ha, heq⟩ := h
  obtain ⟨pfx, sfx, hdec, _, _⟩ := pyStrip_decomp s
  refine ⟨pfx ++ u, w, v ++ sfx, hw, ha, ?_⟩
  rw [hdec, heq]
  simp [List.append_assoc]

/-- `ParenOk` transfers to the stripped body: the removed ends are
whitespace, and a marker claimed by a `'('` of the core cannot reach into
the all-whitespace tail, for its closing parenthesis is not whitespace. -/
theorem parenOk_pyStrip (s : List Char) (hpo : ParenOk s) : ParenOk (pyStrip s) := by
  intro u v heq
  obtain ⟨pfx, sfx, hdec, _, hsfx⟩ := pyStrip_decomp s
  have hs2 : s = (pfx ++ u) ++ '(' :: (v ++ sfx) := by
    rw [hdec, heq]
    simp [List.append_assoc]
  obtain ⟨w, a, t, hw, ha, hmk⟩ := hpo (pfx ++ u) (v ++ sfx) hs2
  have hlen : (mark w a).length ≤ ('(' :: v).length := by
    by_contra hlt
    push_neg at hlt
    have hXlen : ('(' :: v).length ≤
        ('(' :: 'L' :: 'e' :: 'v' :: 'e' :: 'l' :: (w ++ a)).length := by
      have hml := mark_length w a
      simp only [List.length_cons, List.length_append] at hml ⊢
      simp only [List.length_cons] at hlt
      omega
    have hmark2 : mark w a =
        ('(' :: 'L' :: 'e' :: 'v' :: 'e' :: 'l' :: (w ++ a)) ++ [')'] := by
      simp [mark]
    have hdropL : (mark w a ++ t).drop
        ('(' :: 'L' :: 'e' :: 'v' :: 'e' :: 'l' :: (w ++ a)).length = ')' :: t := by
      rw [hmark2, List.append_assoc]
      rw [List.drop_left]
      rfl
    obtain ⟨k, hk⟩ : ∃ k, ('(' :: 'L' :: 'e' :: 'v' :: 'e' :: 'l' :: (w ++ a)).length =
        ('(' :: v).length + k :=
      ⟨('(' :: 'L' :: 'e' :: 'v' :: 'e' :: 'l' :: (w ++ a)).length - ('(' :: v).length,
        by omega⟩
    have hdropR : ('(' :: (v ++ sfx)).drop
        ('(' :: 'L' :: 'e' :: 'v' :: 'e' :: 'l' :: (w ++ a)).length = sfx.drop k := by
      rw [show '(' :: (v ++ sfx) = ('(' :: v) ++ sfx from by simp, hk]
      exact List.drop_append k
    have hdt : ')' :: t = sfx.drop k := by
      rw [← hdropL, ← hdropR, hmk]
    have hmem : ')' ∈ sfx := List.drop_subset _ sfx (by rw [← hdt]; simp)
    exact absurd (hsfx ')' hmem) (by decide)
  have htake : ('(' :: v).take (mark w a).length = mark w a := by
    have h4 : (('(' :: v) ++ sfx).take (mark w a).length =
        ('(' :: v).take (mark w a).length :=
      List.take_append_of_le_length hlen
    have h5 : (('(' :: v) ++ sfx).take (mark w a).length = mark w a := by
      rw [show ('(' :: v) ++ sfx = mark w a ++ t from by rw [← hmk]; simp]
      exact List.take_left _ _
    rw [← h4, h5]
  refine ⟨w, a, ('(' :: v).drop (mark w a).length, hw, ha, ?_⟩
  conv_lhs => rw [← List.take_append_drop (mark w a).length ('(' :: v)]
  rw [htake]


/-- Claim C4, counterexample to the original statement: on the body
`"(Lev(Level A)el A)"` (which contains the marker `"(Level A)"` starting at
offset 4), the HTML-variant chunk has `level = "A"` as expected, but the
substitution deletes only that occurrence and the flanking text
concatenates to `"(Lev" ++ "el A)" = "(Level A)"`, so the cleaned text
still contains a `(Level X)` marker. -/
theorem level_marker_survives_cleaning :
    ∃ ch : Chunk,
      processPair decomposeSc true "https://www.w3.org/TR/WCAG22/"
        (("Success Criterion 1.1.1 T").data, ("(Lev(Level A)el A)").data) = some ch ∧
      HasMarkerP (("(Lev(Level A)el A)").data) ∧
      ch.level = some "A" ∧ ch.text = "(Level A)" ∧
      HasMarkerP ch.text.data := by
  refine ⟨Chunk.mk "1.1.1" "1.1.1" "T" (some "A") "(Level A)"
      "https://www.w3.org/TR/WCAG22/", by decide, ?_, rfl, rfl, ?_⟩
  · exact ⟨['A'], ("(Lev").data, [' '], ("el A)").data,
      ⟨by decide, by decide⟩, ⟨by decide, by decide, by decide⟩, by decide⟩
  · exact ⟨['A'], [], [' '], [],
      ⟨by decide, by decide⟩, ⟨by decide, by decide, by decide⟩, by decide⟩

/-- Claim C4 (amended): in the HTML-scraper variant, for every body
containing a `(Level X)` marker the emitted chunk's `level` equals the value
captured from a marker occurrence of the body, and — provided every `'('`
of the body begins a marker occurrence — the cleaned text contains no
`(Level ...)` marker (without that proviso, deleting an occurrence can
concatenate flanking text into a new marker, as the counterexample shows);
for every body with no marker, the `level` field is `none` and no error is
raised. -/
theorem level_extraction_amended (header body sec title : List Char)
    (hd : decomposeSc (clean header) = some (sec, title)) :
    ∃ ch : Chunk,
      processPair decomposeSc true "https://www.w3.org/TR/WCAG22/" (header, body) = some ch ∧
      (HasMarkerP body → ∃ a, ch.level = some (String.mk a) ∧ MarkerValP body a) ∧
      (ParenOk body → ¬ HasMarkerP ch.text.data) ∧
      (¬ HasMarkerP body → ch.level = none) := by
  refine ⟨Chunk.mk (String.mk sec) (String.mk sec) (String.mk title)
      ((searchLevel (pyStrip body)).map String.mk)
      (String.mk (clean (subLevel (pyStrip body)))) "https://www.w3.org/TR/WCAG22/",
      ?_, ?_, ?_, ?_⟩
  · simp [processPair, hd]
  · intro hm
    obtain ⟨a, u, w, v, hw, ha, heq⟩ := hm
    obtain ⟨u2, v2, heq2⟩ := pyStrip_marker body u w a v heq
    cases hsl : searchLevel (pyStrip body) with
    | none =>
      exact absurd heq2
        (scanSearch_none (pyStrip body).length (pyStrip body) le_rfl hsl u2 w a v2 hw ha)
    | some a0 =>
      exact ⟨a0, by simp [hsl],
        markerVal_back body a0 (scanSearch_some (pyStrip body).length (pyStrip body) a0 hsl)⟩
  · intro hpo hmk
    have h2 : '(' ∉ subLevel (pyStrip body) :=
      scanSub_no_paren (pyStrip body).length (pyStrip body) le_rfl (parenOk_pyStrip body hpo)
    exact no_paren_clean _ h2 (hasMarker_paren _ hmk)
  · intro hnm
    cases hsl : searchLevel (pyStrip body) with
    | none => simp [hsl]
    | some a0 =>
      exact absurd
        ⟨a0, markerVal_back body a0 (scanSearch_some (pyStrip body).length (pyStrip body) a0 hsl)⟩
        hnm

theorem level_extraction_amended_witness :
    decomposeSc (clean ("Success Criterion 1.4.13 Hover").data) =
      some (("1.4.13").data, ("Hover").data) ∧
    (∃ ch : Chunk,
      processPair decomposeSc true "https://www.w3.org/TR/WCAG22/"
        (("Success Criterion 1.4.13 Hover").data, ("x (Level AA) y").data) = some ch ∧
      (HasMarkerP (("x (Level AA) y").data) →
        ∃ a, ch.level = some (String.mk a) ∧ MarkerValP (("x (Level AA) y").data) a) ∧
      (ParenOk (("x (Level AA) y").data) → ¬ HasMarkerP ch.text.data) ∧
      (¬ HasMarkerP (("x (Level AA) y").data) → ch.level = none)) :=
  ⟨by decide,
    level_extraction_amended (("Success Criterion 1.4.13 Hover").data)
      (("x (Level AA) y").data) (("1.4.13").data) (("Hover").data) (by decide)⟩

end AccessibilityEngine
